import Mathlib

/-!
Verification of the computational core of `pulse_animation.py`: the
wave-vector model `k`, the spectral summation `sin_sum`, and the
time-series driver `calc_pulses`.  Numpy arrays are embedded as `List ℝ`,
and the floating-point arithmetic of the script is modelled by exact real
arithmetic.  `sin_sum_run` additionally models the one failure path of
`sin_sum`: the plot-sampling slice `frequencies[a:b:spacing]` is computed
unconditionally (even with `plotting=False`), and Python raises
`ValueError` when the slice step `spacing` is zero.
-/

namespace PulseAnimation

/-- Model of `numpy.linspace start stop num`: `num` evenly spaced samples
with both endpoints included; `[start]` for `num = 1` (the division by
`num - 1 = 0` yields `0` in Lean, matching numpy's special case) and `[]`
for `num = 0`. -/
noncomputable def linspace (start stop : ℝ) (num : ℕ) : List ℝ :=
  (List.range num).map (fun i : ℕ => start + (i : ℝ) * ((stop - start) / ((num : ℝ) - 1)))

/-- Model of `scipy.signal.gaussian M std` (symmetric Gaussian window):
entry `n` is `exp(-(n - (M-1)/2)^2 / (2*std^2))`. -/
noncomputable def gaussian (M : ℕ) (std : ℝ) : List ℝ :=
  (List.range M).map (fun n : ℕ => Real.exp (-((n : ℝ) - ((M : ℝ) - 1) / 2) ^ 2 / (2 * std ^ 2)))

/-- The wave vector `k(nu, nu_center, k0, k1, k2)` of `pulse_animation.py`
(defaults in the script: `k0=1, k1=0, k2=0`). -/
noncomputable def k (nu nu_center k0 k1 k2 : ℝ) : ℝ :=
  let omega := 2 * Real.pi * nu
  let omega_0 := 2 * Real.pi * nu_center
  k0 + k1 * (omega - omega_0) + k2 * (omega - omega_0) ^ 2

/-- The matrix `E_nu` of `sin_sum`: row `i` is the `i`-th spectral component
`spectrum[i] * sin(2*pi*frequencies[i]*t - k(frequencies[i])*z)` evaluated
elementwise over the spatial axis `z`. -/
noncomputable def E_nu (z : List ℝ) (t nu_center : ℝ)
    (frequencies spectrum : List ℝ) (k_i : ℝ × ℝ × ℝ) : List (List ℝ) :=
  (List.range frequencies.length).map (fun i =>
    z.map (fun zj =>
      spectrum.getD i 0 *
        Real.sin (2 * Real.pi * frequencies.getD i 0 * t -
          k (frequencies.getD i 0) nu_center k_i.1 k_i.2.1 k_i.2.2 * zj)))

/-- Numpy `sum(axis=0)` over a list of rows, starting from `np.zeros M`. -/
noncomputable def sum_axis0 (M : ℕ) (rows : List (List ℝ)) : List ℝ :=
  rows.foldl (fun acc row => List.zipWith (· + ·) acc row) (List.replicate M 0)

/-- The value returned by `sin_sum(z, t, nu_center, nu_min, N_frequencies,
spec_width, k_i)` when it runs to completion (script defaults: `nu_center=1`,
`nu_min=0.001`, `N_frequencies=4000`, `spec_width=200`, `k_i=[1,5,0]`). -/
noncomputable def sin_sum (z : List ℝ) (t nu_center nu_min : ℝ)
    (N_frequencies : ℕ) (spec_width : ℝ) (k_i : ℝ × ℝ × ℝ) : List ℝ :=
  let frequencies := linspace nu_min (nu_center * 2) N_frequencies
  let spectrum := gaussian frequencies.length spec_width
  sum_axis0 z.length (E_nu z t nu_center frequencies spectrum k_i)

/-- `N_spec_plot_min = int(2 * N_frequencies / 5)` from `sin_sum`. -/
def N_spec_plot_min (N_frequencies : ℕ) : ℕ := 2 * N_frequencies / 5

/-- `N_spec_plot_max = int(3 * N_frequencies / 5)` from `sin_sum`. -/
def N_spec_plot_max (N_frequencies : ℕ) : ℕ := 3 * N_frequencies / 5

/-- `spacing = int(len(frequencies[N_spec_plot_min:N_spec_plot_max]) / 20)`
from `sin_sum`; since `N_spec_plot_min ≤ N_spec_plot_max ≤ N_frequencies`,
the slice has length `N_spec_plot_max - N_spec_plot_min`. -/
def spacing (N_frequencies : ℕ) : ℕ :=
  (N_spec_plot_max N_frequencies - N_spec_plot_min N_frequencies) / 20

/-- A full run of `sin_sum`, rendering flags included.  Lines 97-102 of the
script compute `plotting_frequencies = frequencies[N_spec_plot_min:
N_spec_plot_max:spacing]` before the `if plotting` branch, so when
`spacing = 0` Python raises `ValueError: slice step cannot be zero`
regardless of the flags (modelled as `none`); otherwise the field array is
returned.  The flags `plotting`, `z_arrow` and `figuresize` are only read
by the matplotlib side effects and never feed into the returned array. -/
noncomputable def sin_sum_run (z : List ℝ) (t nu_center nu_min : ℝ)
    (N_frequencies : ℕ) (spec_width : ℝ) (k_i : ℝ × ℝ × ℝ)
    (plotting z_arrow : Bool) (figuresize : ℝ × ℝ) : Option (List ℝ) :=
  if spacing N_frequencies = 0 then none
  else some (sin_sum z t nu_center nu_min N_frequencies spec_width k_i)

/-- `calc_pulses(z, t_start, t_end, n_steps, nu_center, k_i, spec_width)`:
row `i` is `sin_sum` at `times[i]`, where the call site leaves `nu_min` and
`N_frequencies` at the `sin_sum` defaults `0.001` and `4000` (script
defaults for this function: `nu_center=1`, `k_i=[1,5,0]`, `spec_width=100`). -/
noncomputable def calc_pulses (z : List ℝ) (t_start t_end : ℝ) (n_steps : ℕ)
    (nu_center : ℝ) (k_i : ℝ × ℝ × ℝ) (spec_width : ℝ) : List (List ℝ) :=
  let times := linspace t_start t_end n_steps
  (List.range times.length).map (fun i =>
    sin_sum z (times.getD i 0) nu_center 0.001 4000 spec_width k_i)

theorem linspace_length (start stop : ℝ) (num : ℕ) : (linspace start stop num).length = num := by
  unfold linspace
  rw [List.length_map, List.length_range]

theorem gaussian_length (M : ℕ) (std : ℝ) : (gaussian M std).length = M := by
  unfold gaussian
  rw [List.length_map, List.length_range]

theorem getD_map_of_lt {α β : Type} (f : α → β) (l : List α) (j : ℕ)
    (h : j < l.length) (d : β) (d' : α) : (l.map f).getD j d = f (l.getD j d') := by
  rw [List.getD_eq_getElem?_getD, List.getD_eq_getElem?_getD, List.getElem?_map,
    List.getElem?_eq_getElem h]
  rfl

theorem getD_zipWith_add (a b : List ℝ) (j : ℕ) (ha : j < a.length) (hb : j < b.length) :
    (List.zipWith (· + ·) a b).getD j 0 = a.getD j 0 + b.getD j 0 := by
  have hj : j < (List.zipWith (· + ·) a b).length := by
    rw [List.length_zipWith]; omega
  rw [List.getD_eq_getElem?_getD, List.getElem?_eq_getElem hj,
    List.getD_eq_getElem?_getD, List.getElem?_eq_getElem ha,
    List.getD_eq_getElem?_getD, List.getElem?_eq_getElem hb]
  simp

theorem foldl_zipWith_length (rows : List (List ℝ)) :
    ∀ acc : List ℝ, (∀ r ∈ rows, acc.length ≤ r.length) →
      (rows.foldl (fun a row => List.zipWith (· + ·) a row) acc).length = acc.length := by
  induction rows with
  | nil => intro acc _; rfl
  | cons r rows ih =>
    intro acc h
    have hlen : (List.zipWith (· + ·) acc r).length = acc.length := by
      rw [List.length_zipWith]
      exact Nat.min_eq_left (h r (by simp))
    rw [List.foldl_cons, ih (List.zipWith (· + ·) acc r)
      (by intro r' hr'; rw [hlen]; exact h r' (by simp [hr'])), hlen]

theorem foldl_zipWith_getD (rows : List (List ℝ)) :
    ∀ (acc : List ℝ) (j : ℕ), j < acc.length → (∀ r ∈ rows, acc.length ≤ r.length) →
      (rows.foldl (fun a row => List.zipWith (· + ·) a row) acc).getD j 0
        = acc.getD j 0 + (rows.map (fun r => r.getD j 0)).sum := by
  induction rows with
  | nil => intro acc j hj _; simp
  | cons r rows ih =>
    intro acc j hj h
    have hr : acc.length ≤ r.length := h r (by simp)
    have hlen : (List.zipWith (· + ·) acc r).length = acc.length := by
      rw [List.length_zipWith]
      exact Nat.min_eq_left hr
    rw [List.foldl_cons, ih (List.zipWith (· + ·) acc r) j (by rw [hlen]; exact hj)
      (by intro r' hr'; rw [hlen]; exact h r' (by simp [hr'])),
      getD_zipWith_add acc r j hj (lt_of_lt_of_le hj hr)]
    simp [add_assoc]

theorem getD_replicate_zero (M j : ℕ) : (List.replicate M (0 : ℝ)).getD j 0 = 0 := by
  rw [List.getD_eq_getElem?_getD, List.getElem?_replicate]
  split <;> rfl

theorem sum_axis0_length (M : ℕ) (rows : List (List ℝ)) (h : ∀ r ∈ rows, M ≤ r.length) :
    (sum_axis0 M rows).length = M := by
  unfold sum_axis0
  rw [foldl_zipWith_length rows (List.replicate M 0)
    (by intro r hr; rw [List.length_replicate]; exact h r hr), List.length_replicate]

theorem sum_axis0_getD (M : ℕ) (rows : List (List ℝ)) (j : ℕ) (hj : j < M)
    (h : ∀ r ∈ rows, M ≤ r.length) :
    (sum_axis0 M rows).getD j 0 = (rows.map (fun r => r.getD j 0)).sum := by
  unfold sum_axis0
  rw [foldl_zipWith_getD rows (List.replicate M 0) j (by rwa [List.length_replicate])
    (by intro r hr; rw [List.length_replicate]; exact h r hr), getD_replicate_zero, zero_add]

theorem E_nu_mem_length (z : List ℝ) (t nu_center : ℝ) (frequencies spectrum : List ℝ)
    (k_i : ℝ × ℝ × ℝ) (r : List ℝ) (hr : r ∈ E_nu z t nu_center frequencies spectrum k_i) :
    r.length = z.length := by
  unfold E_nu at hr
  obtain ⟨i, -, rfl⟩ := List.mem_map.mp hr
  exact List.length_map z _

theorem sin_sum_length (z : List ℝ) (t nu_center nu_min : ℝ) (N_frequencies : ℕ)
    (spec_width : ℝ) (k_i : ℝ × ℝ × ℝ) :
    (sin_sum z t nu_center nu_min N_frequencies spec_width k_i).length = z.length := by
  simp only [sin_sum]
  exact sum_axis0_length z.length _
    (fun r hr => le_of_eq (E_nu_mem_length _ _ _ _ _ _ r hr).symm)

theorem sin_sum_getD (z : List ℝ) (t nu_center nu_min : ℝ) (N_frequencies : ℕ)
    (spec_width : ℝ) (k_i : ℝ × ℝ × ℝ) (j : ℕ) (hj : j < z.length) :
    (sin_sum z t nu_center nu_min N_frequencies spec_width k_i).getD j 0 =
      ((List.range N_frequencies).map (fun i : ℕ =>
        (gaussian N_frequencies spec_width).getD i 0 *
          Real.sin (2 * Real.pi * (linspace nu_min (nu_center * 2) N_frequencies).getD i 0 * t -
            k ((linspace nu_min (nu_center * 2) N_frequencies).getD i 0) nu_center
              k_i.1 k_i.2.1 k_i.2.2 * z.getD j 0))).sum := by
  simp only [sin_sum]
  rw [sum_axis0_getD z.length _ j hj
    (fun r hr => le_of_eq (E_nu_mem_length _ _ _ _ _ _ r hr).symm)]
  unfold E_nu
  rw [List.map_map, linspace_length]
  refine congrArg List.sum (List.map_congr_left ?_)
  intro i _
  simp only [Function.comp]
  rw [getD_map_of_lt _ z j hj 0 0]

theorem gaussian_getD_nonneg (M : ℕ) (std : ℝ) (i : ℕ) : 0 ≤ (gaussian M std).getD i 0 := by
  by_cases h : i < (gaussian M std).length
  · rw [List.getD_eq_getElem?_getD, List.getElem?_eq_getElem h, Option.getD_some]
    unfold gaussian
    rw [List.getElem_map]
    positivity
  · rw [List.getD_eq_getElem?_getD, List.getElem?_eq_none (Nat.le_of_not_lt h), Option.getD_none]

theorem gaussian_sum_nonneg (M : ℕ) (std : ℝ) : 0 ≤ (gaussian M std).sum := by
  apply List.sum_nonneg
  intro x hx
  unfold gaussian at hx
  obtain ⟨n, -, rfl⟩ := List.mem_map.mp hx
  positivity

theorem sum_map_getD_range (l : List ℝ) :
    ((List.range l.length).map (fun i => l.getD i 0)).sum = l.sum := by
  induction l with
  | nil => simp
  | cons a l ih =>
    rw [List.length_cons, List.range_succ_eq_map, List.map_cons, List.map_map, List.sum_cons]
    simp only [Function.comp_def, List.getD_cons_zero, List.getD_cons_succ]
    rw [ih, List.sum_cons]

theorem abs_map_sum_le {ι : Type} (xs : List ι) (f g : ι → ℝ)
    (h : ∀ i ∈ xs, |f i| ≤ g i) : |(xs.map f).sum| ≤ (xs.map g).sum := by
  induction xs with
  | nil => simp
  | cons a xs ih =>
    simp only [List.map_cons, List.sum_cons]
    calc |f a + (xs.map f).sum| ≤ |f a| + |(xs.map f).sum| := abs_add _ _
    _ ≤ g a + (xs.map g).sum :=
      add_le_add (h a (by simp)) (ih (fun i hi => h i (by simp [hi])))

theorem sin_sum_abs_getD_le (z : List ℝ) (t nu_center nu_min : ℝ) (N_frequencies : ℕ)
    (spec_width : ℝ) (k_i : ℝ × ℝ × ℝ) (j : ℕ) :
    |(sin_sum z t nu_center nu_min N_frequencies spec_width k_i).getD j 0| ≤
      (gaussian N_frequencies spec_width).sum := by
  by_cases hj : j < z.length
  · rw [sin_sum_getD z t nu_center nu_min N_frequencies spec_width k_i j hj]
    calc |(((List.range N_frequencies).map (fun i : ℕ =>
          (gaussian N_frequencies spec_width).getD i 0 *
            Real.sin (2 * Real.pi * (linspace nu_min (nu_center * 2) N_frequencies).getD i 0 * t -
              k ((linspace nu_min (nu_center * 2) N_frequencies).getD i 0) nu_center
                k_i.1 k_i.2.1 k_i.2.2 * z.getD j 0)))).sum| ≤
        ((List.range N_frequencies).map (fun i : ℕ =>
          (gaussian N_frequencies spec_width).getD i 0)).sum := by
          refine abs_map_sum_le (List.range N_frequencies) _ _ ?_
          intro i _
          rw [abs_mul, abs_of_nonneg (gaussian_getD_nonneg N_frequencies spec_width i)]
          exact mul_le_of_le_one_right (gaussian_getD_nonneg N_frequencies spec_width i)
            (Real.abs_sin_le_one _)
    _ = (gaussian N_frequencies spec_width).sum := by
        have h := sum_map_getD_range (gaussian N_frequencies spec_width)
        rw [gaussian_length] at h
        exact h
  · rw [List.getD_eq_getElem?_getD, List.getElem?_eq_none
      (by rw [sin_sum_length]; exact Nat.le_of_not_lt hj), Option.getD_none, abs_zero]
    exact gaussian_sum_nonneg N_frequencies spec_width

theorem getD_range_of_lt (n i : ℕ) (h : i < n) : (List.range n).getD i 0 = i := by
  rw [List.getD_eq_getElem?_getD, List.getElem?_range h, Option.getD_some]

theorem calc_pulses_length (z : List ℝ) (t_start t_end : ℝ) (n_steps : ℕ)
    (nu_center : ℝ) (k_i : ℝ × ℝ × ℝ) (spec_width : ℝ) :
    (calc_pulses z t_start t_end n_steps nu_center k_i spec_width).length = n_steps := by
  simp only [calc_pulses]
  rw [List.length_map, List.length_range, linspace_length]

theorem calc_pulses_row (z : List ℝ) (t_start t_end : ℝ) (n_steps : ℕ)
    (nu_center : ℝ) (k_i : ℝ × ℝ × ℝ) (spec_width : ℝ) (i : ℕ) (hi : i < n_steps) :
    (calc_pulses z t_start t_end n_steps nu_center k_i spec_width).getD i [] =
      sin_sum z ((linspace t_start t_end n_steps).getD i 0) nu_center 0.001 4000
        spec_width k_i := by
  simp only [calc_pulses]
  rw [linspace_length]
  rw [getD_map_of_lt _ (List.range n_steps) i (by rwa [List.length_range]) [] 0]
  rw [getD_range_of_lt n_steps i hi]

/-- C1: for every spatial axis `z`, time `t` and parameters, every entry of
the array returned by `sin_sum` is the sum, over all `N_frequencies` spectral
components, of `weight_i * sin(2*pi*frequency_i*t - k(frequency_i)*z_j)`,
where the frequencies are the `N_frequencies` samples linearly spaced over
`[nu_min, 2*nu_center]` and the weights are the Gaussian sequence of the
same length. -/
theorem sin_sum_is_spectral_sum (z : List ℝ) (t nu_center nu_min : ℝ)
    (N_frequencies : ℕ) (spec_width : ℝ) (k_i : ℝ × ℝ × ℝ) (j : ℕ) (hj : j < z.length) :
    (sin_sum z t nu_center nu_min N_frequencies spec_width k_i).getD j 0 =
      ((List.range N_frequencies).map (fun i : ℕ =>
        (gaussian N_frequencies spec_width).getD i 0 *
          Real.sin (2 * Real.pi * (linspace nu_min (nu_center * 2) N_frequencies).getD i 0 * t -
            k ((linspace nu_min (nu_center * 2) N_frequencies).getD i 0) nu_center
              k_i.1 k_i.2.1 k_i.2.2 * z.getD j 0))).sum :=
  sin_sum_getD z t nu_center nu_min N_frequencies spec_width k_i j hj

/-- Witness for C1 at `z = [1]`, `t = 0`, two spectral components. -/
theorem sin_sum_is_spectral_sum_witness :
    (sin_sum [1] 0 1 1 2 1 (1, 0, 0)).getD 0 0 =
      ((List.range 2).map (fun i : ℕ =>
        (gaussian 2 1).getD i 0 *
          Real.sin (2 * Real.pi * (linspace 1 (1 * 2) 2).getD i 0 * 0 -
            k ((linspace 1 (1 * 2) 2).getD i 0) 1
              ((1, 0, 0) : ℝ × ℝ × ℝ).1 ((1, 0, 0) : ℝ × ℝ × ℝ).2.1
              ((1, 0, 0) : ℝ × ℝ × ℝ).2.2 * ([1] : List ℝ).getD 0 0))).sum :=
  sin_sum_is_spectral_sum [1] 0 1 1 2 1 (1, 0, 0) 0 (by simp)

/-- C2: `k` returns `k0 + k1*(omega - omega_0) + k2*(omega - omega_0)^2` with
`omega = 2*pi*nu` and `omega_0 = 2*pi*nu_center`; it is embedded as a pure
total Lean function, with no error conditions and no side effects. -/
theorem k_formula (nu nu_center k0 k1 k2 : ℝ) :
    k nu nu_center k0 k1 k2 =
      k0 + k1 * (2 * Real.pi * nu - 2 * Real.pi * nu_center) +
        k2 * (2 * Real.pi * nu - 2 * Real.pi * nu_center) ^ 2 := rfl

/-- C3: with `k1 = k2 = 0`, `k` is constantly `k0` regardless of `nu`; with
`k2 = 0`, `k` is affine in `nu`: `k(nu) - k(nu') = 2*pi*k1*(nu - nu')`. -/
theorem k_constant_and_affine (nu nu' nu_center k0 k1 k2 : ℝ) (h2 : k2 = 0) :
    (k1 = 0 → k nu nu_center k0 k1 k2 = k0) ∧
      k nu nu_center k0 k1 k2 - k nu' nu_center k0 k1 k2 = 2 * Real.pi * k1 * (nu - nu') := by
  subst h2
  constructor
  · intro h1
    subst h1
    simp [k]
  · simp only [k]
    ring

/-- Witness for C3 at `nu = 3`, `nu' = 2`, `nu_center = 1`, `k0 = 5`,
`k1 = k2 = 0`. -/
theorem k_constant_and_affine_witness :
    (k 3 1 5 0 0 = 5) ∧ k 3 1 5 0 0 - k 2 1 5 0 0 = 2 * Real.pi * 0 * (3 - 2) :=
  ⟨(k_constant_and_affine 3 2 1 5 0 0 rfl).1 rfl, (k_constant_and_affine 3 2 1 5 0 0 rfl).2⟩

/-- C4: `calc_pulses` returns an array of shape exactly `(n_steps, len z)`
whose row `i` is the spectral summation evaluated at the `i`-th of the
`n_steps` time values linearly spaced over `[t_start, t_end]`. -/
theorem calc_pulses_shape_and_rows (z : List ℝ) (t_start t_end : ℝ) (n_steps : ℕ)
    (nu_center : ℝ) (k_i : ℝ × ℝ × ℝ) (spec_width : ℝ) :
    (calc_pulses z t_start t_end n_steps nu_center k_i spec_width).length = n_steps ∧
      ∀ i : ℕ, i < n_steps →
        ((calc_pulses z t_start t_end n_steps nu_center k_i spec_width).getD i []).length
            = z.length ∧
          (calc_pulses z t_start t_end n_steps nu_center k_i spec_width).getD i [] =
            sin_sum z ((linspace t_start t_end n_steps).getD i 0) nu_center 0.001 4000
              spec_width k_i := by
  refine ⟨calc_pulses_length z t_start t_end n_steps nu_center k_i spec_width,
    fun i hi => ⟨?_, calc_pulses_row z t_start t_end n_steps nu_center k_i spec_width i hi⟩⟩
  rw [calc_pulses_row z t_start t_end n_steps nu_center k_i spec_width i hi, sin_sum_length]

/-- Witness for C4 with one spatial point and one time step. -/
theorem calc_pulses_shape_and_rows_witness :
    ((calc_pulses [0] 0 1 1 1 (1, 0, 0) 1).getD 0 []).length = ([0] : List ℝ).length ∧
      (calc_pulses [0] 0 1 1 1 (1, 0, 0) 1).getD 0 [] =
        sin_sum [0] ((linspace 0 1 1).getD 0 0) 1 0.001 4000 1 (1, 0, 0) :=
  (calc_pulses_shape_and_rows [0] 0 1 1 1 (1, 0, 0) 1).2 0 (by norm_num)

/-- C5: contrary to the spec, a call of `sin_sum` with `N_frequencies = 1`
(plotting disabled, all other inputs well-formed) does not return an array:
the plot-sampling slice step `spacing` is `0` and is computed before the
`if plotting` branch, so Python raises `ValueError: slice step cannot be
zero`; the run is modelled as `none`. -/
theorem sin_sum_run_single_component_raises :
    sin_sum_run [0] 0 1 0.001 1 200 (1, 5, 0) false false (11, 4) = none := rfl

/-- C6: with `n_steps = 1`, `calc_pulses` returns a single row equal to the
direct invocation of the spectral summation at `t = t_start`. -/
theorem calc_pulses_one_step (z : List ℝ) (t_start t_end nu_center : ℝ)
    (k_i : ℝ × ℝ × ℝ) (spec_width : ℝ) :
    calc_pulses z t_start t_end 1 nu_center k_i spec_width =
      [sin_sum z t_start nu_center 0.001 4000 spec_width k_i] := by
  simp [calc_pulses, linspace]
  rfl

/-- C7: the spectral summation is a pure function of its numeric inputs:
two calls with identical arguments yield identical output arrays. -/
theorem sin_sum_deterministic (z z' : List ℝ) (t t' nu_center nu_center' nu_min nu_min' : ℝ)
    (N_frequencies N_frequencies' : ℕ) (spec_width spec_width' : ℝ)
    (k_i k_i' : ℝ × ℝ × ℝ) (hz : z = z') (ht : t = t') (hnc : nu_center = nu_center')
    (hnm : nu_min = nu_min') (hN : N_frequencies = N_frequencies')
    (hw : spec_width = spec_width') (hki : k_i = k_i') :
    sin_sum z t nu_center nu_min N_frequencies spec_width k_i =
      sin_sum z' t' nu_center' nu_min' N_frequencies' spec_width' k_i' := by
  subst hz ht hnc hnm hN hw hki
  rfl

/-- Witness for C7 at the script's default arguments. -/
theorem sin_sum_deterministic_witness :
    sin_sum [0] 0 1 0.001 4000 200 (1, 5, 0) = sin_sum [0] 0 1 0.001 4000 200 (1, 5, 0) :=
  sin_sum_deterministic [0] [0] 0 0 1 1 0.001 0.001 4000 4000 200 200 (1, 5, 0) (1, 5, 0)
    rfl rfl rfl rfl rfl rfl rfl

/-- C8: for the end-to-end example (`z = linspace(-10, 10, 500)`, `t = 0`,
`nu_center = 1`, `k_i = [1, 5, 0]`, `nu_min = 0.001`, `N_frequencies = 4000`,
`spec_width = 200`), `sin_sum` returns a real array of length 500 and every
entry is bounded in absolute value by the sum of the spectral weights. -/
theorem sin_sum_end_to_end_bounded :
    (sin_sum (linspace (-10) 10 500) 0 1 0.001 4000 200 (1, 5, 0)).length = 500 ∧
      ∀ j : ℕ, |(sin_sum (linspace (-10) 10 500) 0 1 0.001 4000 200 (1, 5, 0)).getD j 0| ≤
        (gaussian 4000 200).sum :=
  ⟨by rw [sin_sum_length, linspace_length],
    fun j => sin_sum_abs_getD_le (linspace (-10) 10 500) 0 1 0.001 4000 200 (1, 5, 0) j⟩

/-- C9: the outcome of a `sin_sum` run does not depend on the rendering
flags: two runs that differ only in `plotting`, `z_arrow` or `figuresize`
produce identical results. -/
theorem sin_sum_run_flags_noninterfere (z : List ℝ) (t nu_center nu_min : ℝ)
    (N_frequencies : ℕ) (spec_width : ℝ) (k_i : ℝ × ℝ × ℝ)
    (p₁ p₂ za₁ za₂ : Bool) (fs₁ fs₂ : ℝ × ℝ) :
    sin_sum_run z t nu_center nu_min N_frequencies spec_width k_i p₁ za₁ fs₁ =
      sin_sum_run z t nu_center nu_min N_frequencies spec_width k_i p₂ za₂ fs₂ := rfl

/-- C10: `calc_pulses` always invokes `sin_sum` with `nu_min = 0.001` and
`N_frequencies = 4000` (the `sin_sum` defaults); its interface exposes only
`nu_center`, `k_i` and `spec_width` as spectral parameters, so every row is
the spectral summation at those fixed values. -/
theorem calc_pulses_fixed_spectrum_defaults (z : List ℝ) (t_start t_end : ℝ)
    (n_steps : ℕ) (nu_center : ℝ) (k_i : ℝ × ℝ × ℝ) (spec_width : ℝ) (i : ℕ)
    (hi : i < n_steps) :
    (calc_pulses z t_start t_end n_steps nu_center k_i spec_width).getD i [] =
      sin_sum z ((linspace t_start t_end n_steps).getD i 0) nu_center 0.001 4000
        spec_width k_i :=
  calc_pulses_row z t_start t_end n_steps nu_center k_i spec_width i hi

/-- Witness for C10 at the second of two time steps. -/
theorem calc_pulses_fixed_spectrum_defaults_witness :
    (calc_pulses [0] 0 1 2 1 (1, 5, 0) 100).getD 1 [] =
      sin_sum [0] ((linspace 0 1 2).getD 1 0) 1 0.001 4000 100 (1, 5, 0) :=
  calc_pulses_fixed_spectrum_defaults [0] 0 1 2 1 (1, 5, 0) 100 1 (by norm_num)

end PulseAnimation
